import Mathlib

/-!
Verification of the benthos file-backed FIFO buffer (the FileBlock storage
engine) and of the pipeline bootstrap wiring in main.go.

The FileBlock implementation itself is not present under src/ (only its test
file is), so the storage engine is modelled from the specification, with the
concrete numbers pinned by the tests in src/unnamed/part_000 taken as the
authority where the two disagree.  Messages are lists of parts; parts are
lists of byte values; on-disk frames are length-prefixed byte runs; segments
are byte lists; the block is a record of cursors, segment contents and a
backlog counter.
-/

/-- Modelled from the spec: a Message is an ordered sequence of parts, each
part an opaque byte string.  Bytes are modelled as natural numbers. -/
abbrev Message := List (List Nat)

/-- Modelled from the spec: big-endian encoding of a 32-bit unsigned integer
into four bytes. -/
def encodeU32 (n : Nat) : List Nat :=
  [n / 16777216 % 256, n / 65536 % 256, n / 256 % 256, n % 256]

/-- Modelled from the spec: read a big-endian 32-bit unsigned integer from the
head of a byte stream, returning the value and the remaining bytes. -/
def decodeU32 : List Nat → Option (Nat × List Nat)
  | b0 :: b1 :: b2 :: b3 :: rest =>
      some (b0 * 16777216 + b1 * 65536 + b2 * 256 + b3, rest)
  | _ => none

/-- Modelled from the spec: one part is serialised as its 32-bit length
followed by its bytes. -/
def encodePart (p : List Nat) : List Nat := encodeU32 p.length ++ p

/-- Modelled from the spec: the serialised body of a message is the 32-bit
part count followed by the serialised parts. -/
def innerBytes (m : Message) : List Nat :=
  encodeU32 m.length ++ (m.map encodePart).flatten

/-- Modelled from the spec: byte length of the serialised message body,
the part count word plus a length word and payload per part. -/
def innerSize (m : Message) : Nat :=
  4 + (m.map (fun p => 4 + p.length)).sum

/-- Modelled from the spec and the backlog numbers pinned by
TestFileBlockBacklogCounter: a frame is the 32-bit byte length of the
serialised message body followed by the body itself. -/
def encodeMsg (m : Message) : List Nat := encodeU32 (innerSize m) ++ innerBytes m

/-- Modelled from the spec: the encoded (on-disk) size of a message, the
frame length prefix plus the body. -/
def encodedSize (m : Message) : Nat := 4 + innerSize m

/-- Modelled from the spec: decode a given number of parts from a byte
stream, each a 32-bit length followed by that many bytes. -/
def decodeParts : Nat → List Nat → Option (List (List Nat) × List Nat)
  | 0, bytes => some ([], bytes)
  | n + 1, bytes =>
    match decodeU32 bytes with
    | none => none
    | some (len, rest) =>
      if len ≤ rest.length then
        match decodeParts n (rest.drop len) with
        | none => none
        | some (ps, rest2) => some (rest.take len :: ps, rest2)
      else none

/-- Modelled from the spec: parse a serialised message body, a part count
followed by the parts. -/
def decodeInner (bytes : List Nat) : Option Message :=
  match decodeU32 bytes with
  | none => none
  | some (n, rest) =>
    match decodeParts n rest with
    | none => none
    | some (ps, _) => some ps

/-- Modelled from the spec: decode one frame from the head of a byte stream:
read the body length, take that many bytes, parse the body; return the
message and the remaining bytes.  Returns none on a short or torn frame. -/
def decodeMsg (bytes : List Nat) : Option (Message × List Nat) :=
  match decodeU32 bytes with
  | none => none
  | some (len, rest) =>
    if len ≤ rest.length then
      match decodeInner (rest.take len) with
      | none => none
      | some m => some (m, rest.drop len)
    else none

/-- A message whose serialised body fits in a 32-bit length word, as the
data model bounds require. -/
def BoundedMsg (m : Message) : Prop := innerSize m < 4294967296

instance (m : Message) : Decidable (BoundedMsg m) := by
  unfold BoundedMsg; infer_instance

/-- All messages of a list are bounded. -/
def BoundedAll (ms : List Message) : Prop := ∀ m ∈ ms, BoundedMsg m

instance (ms : List Message) : Decidable (BoundedAll ms) := by
  unfold BoundedAll; infer_instance

-- Codec lemmas

theorem encodeU32_length (n : Nat) : (encodeU32 n).length = 4 := rfl

theorem decodeU32_encodeU32 (n : Nat) (r : List Nat) (h : n < 4294967296) :
    decodeU32 (encodeU32 n ++ r) = some (n, r) := by
  simp only [encodeU32, List.cons_append, List.nil_append, decodeU32]
  congr 1
  congr 1
  omega

theorem flatten_map_encodePart_length (ps : List (List Nat)) :
    ((ps.map encodePart).flatten).length = (ps.map (fun p => 4 + p.length)).sum := by
  induction ps with
  | nil => rfl
  | cons p ps ih =>
    simp only [List.map_cons, List.flatten_cons, List.length_append, ih,
      encodePart, List.length_append, encodeU32_length, List.sum_cons]

theorem innerBytes_length (m : Message) : (innerBytes m).length = innerSize m := by
  unfold innerBytes innerSize
  rw [List.length_append, encodeU32_length, flatten_map_encodePart_length]

theorem encodeMsg_length (m : Message) : (encodeMsg m).length = encodedSize m := by
  unfold encodeMsg encodedSize
  rw [List.length_append, encodeU32_length, innerBytes_length]

theorem innerSize_ge (m : Message) : 4 + 4 * m.length ≤ innerSize m := by
  unfold innerSize
  induction m with
  | nil => simp
  | cons p ps ih => simp only [List.map_cons, List.sum_cons, List.length_cons]; omega

theorem encodedSize_ge (m : Message) : 8 ≤ encodedSize m := by
  have := innerSize_ge m
  unfold encodedSize
  omega

theorem BoundedMsg.count_lt {m : Message} (h : BoundedMsg m) : m.length < 4294967296 := by
  have := innerSize_ge m
  unfold BoundedMsg at h
  omega

theorem BoundedMsg.part_lt {m : Message} (h : BoundedMsg m) {p : List Nat} (hp : p ∈ m) :
    p.length < 4294967296 := by
  unfold BoundedMsg innerSize at h
  have h2 : 4 + p.length ≤ (m.map (fun q => 4 + q.length)).sum :=
    List.single_le_sum (fun y _ => Nat.zero_le y) (4 + p.length)
      (List.mem_map_of_mem _ hp)
  omega

theorem decodeParts_encodeParts (ps : List (List Nat)) (r : List Nat)
    (h : ∀ p ∈ ps, p.length < 4294967296) :
    decodeParts ps.length ((ps.map encodePart).flatten ++ r) = some (ps, r) := by
  induction ps with
  | nil => rfl
  | cons p ps ih =>
    have hp : p.length < 4294967296 := h p (by simp)
    simp only [List.length_cons, List.map_cons, List.flatten_cons, decodeParts]
    rw [encodePart, List.append_assoc, List.append_assoc,
      decodeU32_encodeU32 _ _ hp]
    rw [← List.append_assoc]
    have htake : ((p ++ (ps.map encodePart).flatten ++ r).take p.length) = p := by
      rw [List.append_assoc]; exact List.take_left p _
    have hdrop : ((p ++ (ps.map encodePart).flatten ++ r).drop p.length) =
        (ps.map encodePart).flatten ++ r := by
      rw [List.append_assoc]; exact List.drop_left p _
    have hlen : p.length ≤ (p ++ (ps.map encodePart).flatten ++ r).length := by
      simp
    simp only [hlen, if_pos, htake, hdrop, ih (fun q hq => h q (by simp [hq]))]

theorem decodeInner_innerBytes (m : Message) (h : BoundedMsg m) :
    decodeInner (innerBytes m) = some m := by
  have hdp : decodeParts m.length ((m.map encodePart).flatten) = some (m, []) := by
    have h2 := decodeParts_encodeParts m [] (fun p hp => h.part_lt hp)
    rw [List.append_nil] at h2
    exact h2
  unfold decodeInner innerBytes
  rw [decodeU32_encodeU32 _ _ h.count_lt]
  simp only [hdp]

theorem decodeMsg_encodeMsg (m : Message) (r : List Nat) (h : BoundedMsg m) :
    decodeMsg (encodeMsg m ++ r) = some (m, r) := by
  unfold decodeMsg encodeMsg
  rw [List.append_assoc, decodeU32_encodeU32 _ _ h]
  have hlen : innerSize m ≤ (innerBytes m ++ r).length := by
    simp [innerBytes_length]
  have htake : (innerBytes m ++ r).take (innerSize m) = innerBytes m := by
    conv_lhs => rw [← innerBytes_length m]
    exact List.take_left _ _
  have hdrop : (innerBytes m ++ r).drop (innerSize m) = r := by
    conv_lhs => rw [← innerBytes_length m]
    exact List.drop_left _ _
  simp only [hlen, if_pos, htake, hdrop, decodeInner_innerBytes m h]

theorem decodeMsg_nil : decodeMsg [] = none := rfl

-- The block state machine, modelled from the specification (the Go
-- implementation of FileBlock is not under src/; only its tests are).

/-- Modelled from the spec: the in-memory state of a FileBlock.  The segment
chain holds the byte contents of the live segments in ascending id order;
the head of the chain is the read segment, the last is the write segment.
The write offset is derived: appends only ever extend the tail of the write
segment, so it always equals the write segment byte length. -/
structure FileBlock where
  fileSize : Nat
  readSegId : Nat
  segs : List (List Nat)
  readOffset : Nat
  backlog : Nat
deriving DecidableEq

/-- Modelled from the spec: the write cursor offset, which equals the byte
length of the write segment. -/
def writeOffset (st : FileBlock) : Nat := (st.segs.getLastD []).length

/-- Append bytes at the tail of the last segment of a chain. -/
def appendToLast : List (List Nat) → List Nat → List (List Nat)
  | [], bs => [bs]
  | [x], bs => [x ++ bs]
  | x :: y :: xs, bs => x :: appendToLast (y :: xs) bs

/-- Modelled from the spec: Push encodes the message; if appending would
cross FileSize and the write segment is non-empty it first rolls over to a
fresh segment; it then appends the frame and adds the encoded size to the
backlog. -/
def pushMessage (st : FileBlock) (m : Message) : FileBlock :=
  if st.fileSize < writeOffset st + encodedSize m ∧ 0 < writeOffset st then
    { st with segs := appendToLast (st.segs ++ [[]]) (encodeMsg m),
              backlog := st.backlog + encodedSize m }
  else
    { st with segs := appendToLast st.segs (encodeMsg m),
              backlog := st.backlog + encodedSize m }

/-- Modelled from the spec: Next returns the message at the read cursor
without advancing it; none when no complete frame is available there
(the blocking wait of the implementation is observed as none). -/
def nextMessage (st : FileBlock) : Option Message :=
  (decodeMsg ((st.segs.headD []).drop st.readOffset)).map Prod.fst

/-- Modelled from the spec as amended by TestFileBlockBacklogCounter: Shift
advances the read cursor past the frame at the read cursor (reading its
length prefix), decreasing the backlog by the encoded frame size; when the
read segment is thereby drained and an older-than-write segment, it is
reaped.  A Shift finding no complete frame at the cursor is a no-op. -/
def shiftMessage (st : FileBlock) : FileBlock :=
  match decodeU32 ((st.segs.headD []).drop st.readOffset) with
  | none => st
  | some (len, rest) =>
    if len ≤ rest.length then
      if st.readOffset + 4 + len = (st.segs.headD []).length ∧ 1 < st.segs.length then
        { st with segs := st.segs.tail, readSegId := st.readSegId + 1,
                  readOffset := 0, backlog := st.backlog - (4 + len) }
      else
        { st with readOffset := st.readOffset + 4 + len,
                  backlog := st.backlog - (4 + len) }
    else st

/-- Modelled from the spec: a freshly created block over an empty directory:
segment 0 exists and is empty, both cursors are at (0, 0), backlog is 0. -/
def fileBlockNew (fs : Nat) : FileBlock :=
  { fileSize := fs, readSegId := 0, segs := [[]], readOffset := 0, backlog := 0 }

/-- Push a whole sequence of messages in order. -/
def pushAllMessages (st : FileBlock) (ms : List Message) : FileBlock :=
  ms.foldl pushMessage st

/-- Drain the block by successive Next/Shift pairs, collecting the messages
returned by Next, stopping when Next finds nothing or the fuel runs out. -/
def drainMessages : FileBlock → Nat → List Message
  | _, 0 => []
  | st, fuel + 1 =>
    match nextMessage st with
    | none => []
    | some m => m :: drainMessages (shiftMessage st) fuel

/-- Modelled from the spec: recovery scan of a segment from offset 0,
decoding frames; returns the last offset at which a complete frame ended.
Fuel-indexed; a frame always consumes at least four bytes, so a fuel equal
to the byte count suffices. -/
def scanSegAux : Nat → List Nat → Nat
  | 0, _ => 0
  | fuel + 1, bytes =>
    match decodeMsg bytes with
    | none => 0
    | some (_, rest) => (bytes.length - rest.length) + scanSegAux fuel rest

/-- Modelled from the spec: the torn-tail scan offset W of a segment. -/
def scanSeg (bytes : List Nat) : Nat := scanSegAux bytes.length bytes

/-- Modelled from the spec: Open over a directory listing (segment byte
contents in ascending id order).  An empty directory yields a fresh block.
Otherwise the lowest id becomes the read head, the write segment is scanned
from offset 0 and truncated to the last complete frame boundary W, and the
backlog is reconstructed as the sum of the intermediate segment file lengths
plus W. -/
def openBlock (fs : Nat) (dirSegs : List (List Nat)) : FileBlock :=
  match dirSegs with
  | [] => fileBlockNew fs
  | s :: ss =>
    let w := scanSeg ((s :: ss).getLastD [])
    { fileSize := fs
      readSegId := 0
      segs := (s :: ss).dropLast ++ [((s :: ss).getLastD []).take w]
      readOffset := 0
      backlog := (((s :: ss).dropLast).map List.length).sum + w }

/-- Modelled from the spec: Close flushes and releases handles; what survives
on disk is exactly the segment byte contents. -/
def closeBlock (st : FileBlock) : List (List Nat) := st.segs

-- Bootstrap wiring, translated from src/main.go.

/-- How the buffer is coupled to the configured outputs in main.go: through
a fan-out broker over all of them, or directly to the single output. -/
inductive OutWiring
  | viaFanOut (outs : List String)
  | directTo (out : String)
deriving DecidableEq

/-- How the configured inputs are coupled to the buffer in main.go: through
a fan-in broker over all of them, or directly from the single input. -/
inductive InWiring
  | viaFanIn (ins : List String)
  | directFrom (inp : String)
deriving DecidableEq

/-- Translated from main.go lines 192-203: a fan-out broker is constructed
when the number of outputs differs from one, otherwise the buffer is coupled
to outputs[0]. -/
def wireOut (outs : List String) : OutWiring :=
  if outs.length ≠ 1 then OutWiring.viaFanOut outs
  else OutWiring.directTo (outs.headD "")

/-- Translated from main.go lines 205-216: a fan-in broker is constructed
when the number of inputs differs from one, otherwise inputs[0] is coupled
to the buffer. -/
def wireIn (ins : List String) : InWiring :=
  if ins.length ≠ 1 then InWiring.viaFanIn ins
  else InWiring.directFrom (ins.headD "")

/-- Whether the output side uses a fan-out broker. -/
def OutWiring.usesFanOut : OutWiring → Bool
  | viaFanOut _ => true
  | directTo _ => false

/-- Whether the input side uses a fan-in broker. -/
def InWiring.usesFanIn : InWiring → Bool
  | viaFanIn _ => true
  | directFrom _ => false

/-- Translated from main.go lines 110-115: the loop setting haveStdout when
some configured output has type stdout. -/
def haveStdoutFlag (outTypes : List String) : Bool :=
  outTypes.foldl (fun acc t => if t = "stdout" then true else acc) false

/-- The two possible destinations of the process logger. -/
inductive LogSink
  | toStderr
  | toStdout
deriving DecidableEq

/-- Translated from main.go lines 116-120: log to stderr when haveStdout is
set, otherwise to stdout. -/
def logDestination (outTypes : List String) : LogSink :=
  if haveStdoutFlag outTypes then LogSink.toStderr else LogSink.toStdout

-- Ghost abstraction: each segment is the concatenation of whole frames.

/-- The byte run obtained by encoding a list of messages back to back. -/
def encodeList (ms : List Message) : List Nat := (ms.map encodeMsg).flatten

/-- Total encoded size of a list of messages. -/
def sizeList (ms : List Message) : Nat := (ms.map encodedSize).sum

theorem encodeList_nil : encodeList [] = [] := rfl

theorem encodeList_cons (m : Message) (ms : List Message) :
    encodeList (m :: ms) = encodeMsg m ++ encodeList ms := by
  simp [encodeList]

theorem encodeList_append (a b : List Message) :
    encodeList (a ++ b) = encodeList a ++ encodeList b := by
  simp [encodeList]

theorem sizeList_nil : sizeList [] = 0 := rfl

theorem sizeList_cons (m : Message) (ms : List Message) :
    sizeList (m :: ms) = encodedSize m + sizeList ms := by
  simp [sizeList]

theorem sizeList_append (a b : List Message) :
    sizeList (a ++ b) = sizeList a + sizeList b := by
  simp [sizeList]

theorem encodeList_length (ms : List Message) :
    (encodeList ms).length = sizeList ms := by
  induction ms with
  | nil => rfl
  | cons m ms ih =>
    rw [encodeList_cons, List.length_append, encodeMsg_length, ih, sizeList_cons]

theorem sizeList_eq_zero {ms : List Message} (h : sizeList ms = 0) : ms = [] := by
  cases ms with
  | nil => rfl
  | cons m ms =>
    rw [sizeList_cons] at h
    have := encodedSize_ge m
    omega

theorem length_le_sizeList (ms : List Message) : ms.length ≤ sizeList ms := by
  induction ms with
  | nil => simp [sizeList_nil]
  | cons m ms ih =>
    rw [sizeList_cons, List.length_cons]
    have := encodedSize_ge m
    omega

/-- Ghost mirror of appendToLast at the message level: add a message to the
last group of a chain of per-segment message groups. -/
def appendLastGroup : List (List Message) → Message → List (List Message)
  | [], m => [[m]]
  | [g], m => [g ++ [m]]
  | g :: g2 :: gs, m => g :: appendLastGroup (g2 :: gs) m

theorem appendLastGroup_eq (gs : List (List Message)) (m : Message) (h : gs ≠ []) :
    appendLastGroup gs m = gs.dropLast ++ [gs.getLastD [] ++ [m]] := by
  induction gs with
  | nil => exact absurd rfl h
  | cons g gs ih =>
    cases gs with
    | nil => rfl
    | cons g2 gs2 =>
      have h2 := ih (by simp)
      simp only [appendLastGroup, h2, List.dropLast_cons₂, List.cons_append]
      simp [List.getLastD_cons]

theorem appendToLast_eq (l : List (List Nat)) (bs : List Nat) (h : l ≠ []) :
    appendToLast l bs = l.dropLast ++ [l.getLastD [] ++ bs] := by
  induction l with
  | nil => exact absurd rfl h
  | cons x l ih =>
    cases l with
    | nil => rfl
    | cons y l2 =>
      have h2 := ih (by simp)
      simp only [appendToLast, h2, List.dropLast_cons₂, List.cons_append]
      simp [List.getLastD_cons]

theorem getLastD_map {α β : Type} (f : α → β) (l : List α) (d : α) :
    (l.map f).getLastD (f d) = f (l.getLastD d) := by
  induction l generalizing d with
  | nil => rfl
  | cons x l ih =>
    simp only [List.map_cons, List.getLastD_cons]
    exact ih x

theorem appendToLast_map_encodeList (gs : List (List Message)) (m : Message)
    (h : gs ≠ []) :
    appendToLast (gs.map encodeList) (encodeMsg m) =
      (appendLastGroup gs m).map encodeList := by
  rw [appendToLast_eq _ _ (by simpa using h), appendLastGroup_eq _ _ h]
  rw [List.map_append, List.map_dropLast]
  have hlast : (gs.map encodeList).getLastD [] = encodeList (gs.getLastD []) := by
    have h2 := getLastD_map encodeList gs []
    rwa [encodeList_nil] at h2
  rw [hlast]
  simp [encodeList_append, encodeList_cons, encodeList_nil]

theorem appendLastGroup_flatten (gs : List (List Message)) (m : Message) :
    (appendLastGroup gs m).flatten = gs.flatten ++ [m] := by
  induction gs with
  | nil => rfl
  | cons g gs ih =>
    cases gs with
    | nil => simp [appendLastGroup]
    | cons g2 gs2 => simp [appendLastGroup, ih]

theorem appendToLast_length (l : List (List Nat)) (bs : List Nat) (h : l ≠ []) :
    (appendToLast l bs).length = l.length := by
  rw [appendToLast_eq _ _ h]
  have : l = l.dropLast ++ [l.getLastD []] := by
    conv_lhs => rw [← List.dropLast_append_getLast h]
    congr 1
    rw [List.getLastD_eq_getLast?, List.getLast?_eq_getLast l h]
    rfl
  conv_rhs => rw [this]
  simp

/-- Ghost mirror of pushMessage at the message level. -/
def pushGroups (fs : Nat) (gs : List (List Message)) (m : Message) :
    List (List Message) :=
  if fs < sizeList (gs.getLastD []) + encodedSize m ∧ 0 < sizeList (gs.getLastD []) then
    gs ++ [[m]]
  else appendLastGroup gs m

/-- Ghost mirror of pushAllMessages at the message level. -/
def pushAllGroups (fs : Nat) (gs : List (List Message)) (ms : List Message) :
    List (List Message) :=
  ms.foldl (pushGroups fs) gs

theorem pushGroups_flatten (fs : Nat) (gs : List (List Message)) (m : Message) :
    (pushGroups fs gs m).flatten = gs.flatten ++ [m] := by
  unfold pushGroups
  split
  · simp
  · exact appendLastGroup_flatten gs m

theorem pushAllGroups_flatten (fs : Nat) (gs : List (List Message))
    (ms : List Message) :
    (pushAllGroups fs gs ms).flatten = gs.flatten ++ ms := by
  induction ms generalizing gs with
  | nil => simp [pushAllGroups]
  | cons m ms ih =>
    show (pushAllGroups fs (pushGroups fs gs m) ms).flatten = _
    rw [ih, pushGroups_flatten]
    simp

/-- Either every group is non-empty, or the chain is the single empty group
of a freshly created block. -/
def NEGroups (gs : List (List Message)) : Prop :=
  (∀ g ∈ gs, g ≠ []) ∨ gs = [[]]

/-- The coupling invariant between a block state and its ghost groups during
the push phase: the read cursor is at the origin, each segment holds the
back-to-back frames of its group, and the backlog counts every frame. -/
def PushInv (fs : Nat) (st : FileBlock) (gs : List (List Message)) : Prop :=
  gs ≠ [] ∧
  st.fileSize = fs ∧
  st.segs = gs.map encodeList ∧
  st.readOffset = 0 ∧
  st.backlog = sizeList gs.flatten ∧
  NEGroups gs ∧
  BoundedAll gs.flatten

/-- The coupling invariant between a block state and its pending message
queue during draining: the read segment splits into consumed bytes before
the read offset and whole frames after it, every later segment is whole
frames, and the backlog counts exactly the pending queue. -/
def DrainInv (st : FileBlock) (q : List Message) : Prop :=
  ∃ (consumed : List Nat) (hms : List Message) (tms : List (List Message)),
    st.segs = (consumed ++ encodeList hms) :: tms.map encodeList ∧
    st.readOffset = consumed.length ∧
    q = hms ++ tms.flatten ∧
    st.backlog = sizeList q ∧
    (∀ g ∈ tms, g ≠ []) ∧
    (q ≠ [] → hms ≠ []) ∧
    BoundedAll q

/-- The per-segment size bounds maintained by the rollover rule: dropping
the last frame of any segment leaves at most FileSize bytes, and a frame
larger than FileSize always sits alone in its segment. -/
def SizeInv (fs : Nat) (gs : List (List Message)) : Prop :=
  (∀ g ∈ gs, sizeList g.dropLast ≤ fs) ∧
  (∀ g ∈ gs, ∀ m ∈ g, fs < encodedSize m → g = [m])

-- Push-phase invariant preservation

theorem writeOffset_of_pushInv {fs : Nat} {st : FileBlock} {gs : List (List Message)}
    (h : PushInv fs st gs) : writeOffset st = sizeList (gs.getLastD []) := by
  obtain ⟨-, -, hsegs, -, -, -, -⟩ := h
  unfold writeOffset
  rw [hsegs]
  have h2 := getLastD_map encodeList gs []
  rw [encodeList_nil] at h2
  rw [h2, encodeList_length]

theorem getLastD_concat_lists {α : Type} (l : List α) (a : α) (d : α) :
    (l ++ [a]).getLastD d = a := by
  simp [List.getLastD_eq_getLast?]

theorem pushMessage_pushInv {fs : Nat} {st : FileBlock} {gs : List (List Message)}
    {m : Message} (hinv : PushInv fs st gs) (hm : BoundedMsg m) :
    PushInv fs (pushMessage st m) (pushGroups fs gs m) := by
  have hwo := writeOffset_of_pushInv hinv
  obtain ⟨hne, hfs, hsegs, hro, hbk, hneg, hball⟩ := hinv
  have hcond : (st.fileSize < writeOffset st + encodedSize m ∧ 0 < writeOffset st) ↔
      (fs < sizeList (gs.getLastD []) + encodedSize m ∧ 0 < sizeList (gs.getLastD [])) := by
    rw [hwo, hfs]
  by_cases hc : fs < sizeList (gs.getLastD []) + encodedSize m ∧ 0 < sizeList (gs.getLastD [])
  · -- rollover: a fresh segment receives the frame alone
    have hpush : pushMessage st m =
        { st with segs := appendToLast (st.segs ++ [[]]) (encodeMsg m),
                  backlog := st.backlog + encodedSize m } := by
      unfold pushMessage
      rw [if_pos (hcond.mpr hc)]
    have hgrp : pushGroups fs gs m = gs ++ [[m]] := by
      unfold pushGroups
      rw [if_pos hc]
    have hsegs2 : appendToLast (st.segs ++ [[]]) (encodeMsg m) =
        (gs ++ [[m]]).map encodeList := by
      rw [hsegs]
      have hmap : (gs.map encodeList) ++ [[]] = (gs ++ [[]]).map encodeList := by
        simp [encodeList_nil]
      rw [hmap, appendToLast_map_encodeList _ m (by simp)]
      rw [appendLastGroup_eq _ m (by simp), List.dropLast_concat,
        getLastD_concat_lists]
      simp
    have hheadne : gs ≠ [[]] := by
      intro hgs
      rw [hgs] at hc
      simp [sizeList_nil] at hc
    refine ⟨?_, ?_, ?_, ?_, ?_, ?_, ?_⟩
    · rw [hgrp]; simp
    · rw [hpush]; exact hfs
    · rw [hpush, hgrp]; exact hsegs2
    · rw [hpush]; exact hro
    · rw [hpush, hgrp]
      show st.backlog + encodedSize m = sizeList ((gs ++ [[m]]).flatten)
      rw [hbk, List.flatten_append]
      simp [sizeList_append, sizeList_cons, sizeList_nil]
    · rw [hgrp]
      left
      intro g hg
      rcases List.mem_append.mp hg with hg1 | hg2
      · rcases hneg with hall | hsingle
        · exact hall g hg1
        · exact absurd hsingle hheadne
      · simp at hg2
        simp [hg2]
    · rw [hgrp, List.flatten_append]
      intro x hx
      rcases List.mem_append.mp hx with hx1 | hx2
      · exact hball x hx1
      · simp at hx2
        rwa [hx2]
  · -- no rollover: the frame extends the current write segment
    have hpush : pushMessage st m =
        { st with segs := appendToLast st.segs (encodeMsg m),
                  backlog := st.backlog + encodedSize m } := by
      unfold pushMessage
      rw [if_neg (fun hx => hc (hcond.mp hx))]
    have hgrp : pushGroups fs gs m = appendLastGroup gs m := by
      unfold pushGroups
      rw [if_neg hc]
    have hsegs2 : appendToLast st.segs (encodeMsg m) =
        (appendLastGroup gs m).map encodeList := by
      rw [hsegs, appendToLast_map_encodeList _ m hne]
    have hgs' : appendLastGroup gs m = gs.dropLast ++ [gs.getLastD [] ++ [m]] :=
      appendLastGroup_eq gs m hne
    refine ⟨?_, ?_, ?_, ?_, ?_, ?_, ?_⟩
    · rw [hgrp, hgs']; simp
    · rw [hpush]; exact hfs
    · rw [hpush, hgrp]; exact hsegs2
    · rw [hpush]; exact hro
    · rw [hpush, hgrp]
      show st.backlog + encodedSize m = sizeList ((appendLastGroup gs m).flatten)
      rw [hbk, appendLastGroup_flatten]
      simp [sizeList_append, sizeList_cons, sizeList_nil]
    · rw [hgrp, hgs']
      left
      intro g hg
      rcases List.mem_append.mp hg with hg1 | hg2
      · have hgin : g ∈ gs := List.dropLast_subset gs hg1
        rcases hneg with hall | hsingle
        · exact hall g hgin
        · rw [hsingle] at hgin
          simp at hgin
          rw [hsingle] at hg1
          simp at hg1
      · simp at hg2
        simp [hg2]
    · rw [hgrp, appendLastGroup_flatten]
      intro x hx
      rcases List.mem_append.mp hx with hx1 | hx2
      · exact hball x hx1
      · simp at hx2
        rwa [hx2]

theorem pushInv_fileBlockNew (fs : Nat) : PushInv fs (fileBlockNew fs) [[]] := by
  refine ⟨by simp, rfl, ?_, rfl, ?_, Or.inr rfl, ?_⟩
  · simp [fileBlockNew, encodeList_nil]
  · simp [fileBlockNew, sizeList_nil]
  · intro x hx
    simp at hx

theorem pushAllMessages_pushInv {fs : Nat} {st : FileBlock} {gs : List (List Message)}
    (hinv : PushInv fs st gs) {ms : List Message} (hms : BoundedAll ms) :
    PushInv fs (pushAllMessages st ms) (pushAllGroups fs gs ms) := by
  induction ms generalizing st gs with
  | nil => exact hinv
  | cons m ms ih =>
    have hm : BoundedMsg m := hms m (by simp)
    have hms' : BoundedAll ms := fun x hx => hms x (by simp [hx])
    exact ih (pushMessage_pushInv hinv hm) hms'

-- Drain-phase invariant preservation

theorem drainInv_of_pushInv {fs : Nat} {st : FileBlock} {gs : List (List Message)}
    (h : PushInv fs st gs) : DrainInv st gs.flatten := by
  obtain ⟨hne, hfs, hsegs, hro, hbk, hneg, hball⟩ := h
  cases gs with
  | nil => exact absurd rfl hne
  | cons g tms =>
    refine ⟨[], g, tms, ?_, ?_, ?_, hbk, ?_, ?_, hball⟩
    · rw [hsegs]; simp [List.map_cons]
    · simpa using hro
    · simp
    · intro g2 hg2
      rcases hneg with hall | hsingle
      · exact hall g2 (by simp [hg2])
      · have : tms = [] := by
          have h2 := congrArg List.tail hsingle
          simpa using h2
        rw [this] at hg2
        simp at hg2
    · intro hq
      rcases hneg with hall | hsingle
      · exact hall g (by simp)
      · exfalso
        apply hq
        have hg : g = [] := by
          have h2 := congrArg (fun l => List.headD l [[]]) hsingle
          simpa using h2
        have ht : tms = [] := by
          have h2 := congrArg List.tail hsingle
          simpa using h2
        simp [hg, ht]

theorem nextMessage_drainInv {st : FileBlock} {m : Message} {q : List Message}
    (h : DrainInv st (m :: q)) : nextMessage st = some m := by
  obtain ⟨consumed, hms, tms, hsegs, hro, hq, hbk, htms, hhd, hball⟩ := h
  have hm : BoundedMsg m := hball m (by simp)
  have hne : hms ≠ [] := hhd (by simp)
  obtain ⟨h0, hms', rfl⟩ : ∃ h0 hms', hms = h0 :: hms' := by
    cases hms with
    | nil => exact absurd rfl hne
    | cons a b => exact ⟨a, b, rfl⟩
  rw [List.cons_append] at hq
  injection hq with h1 h2
  subst h1
  unfold nextMessage
  rw [hsegs]
  show (decodeMsg ((consumed ++ encodeList (m :: hms')).drop st.readOffset)).map Prod.fst
    = some m
  rw [hro, List.drop_left, encodeList_cons, decodeMsg_encodeMsg m _ hm]
  rfl

theorem shiftMessage_drainInv {st : FileBlock} {m : Message} {q : List Message}
    (h : DrainInv st (m :: q)) : DrainInv (shiftMessage st) q := by
  obtain ⟨consumed, hms, tms, hsegs, hro, hq, hbk, htms, hhd, hball⟩ := h
  have hm : BoundedMsg m := hball m (by simp)
  have hne : hms ≠ [] := hhd (by simp)
  obtain ⟨h0, hms', rfl⟩ : ∃ h0 hms', hms = h0 :: hms' := by
    cases hms with
    | nil => exact absurd rfl hne
    | cons a b => exact ⟨a, b, rfl⟩
  rw [List.cons_append] at hq
  injection hq with h1 h2
  subst h1
  have hinner : innerSize m < 4294967296 := hm
  have hseg : st.segs.headD [] = consumed ++ (encodeMsg m ++ encodeList hms') := by
    rw [hsegs]
    simp [encodeList_cons]
  have hdrop : (st.segs.headD []).drop st.readOffset = encodeMsg m ++ encodeList hms' := by
    rw [hseg, hro]
    exact List.drop_left _ _
  have hdec : decodeU32 ((st.segs.headD []).drop st.readOffset) =
      some (innerSize m, innerBytes m ++ encodeList hms') := by
    rw [hdrop, encodeMsg, List.append_assoc]
    exact decodeU32_encodeU32 _ _ hinner
  have hlen : innerSize m ≤ (innerBytes m ++ encodeList hms').length := by
    rw [List.length_append, innerBytes_length]
    omega
  have hseglen : (st.segs.headD []).length =
      consumed.length + encodedSize m + sizeList hms' := by
    rw [hseg, List.length_append, List.length_append, encodeMsg_length,
      encodeList_length]
    omega
  have hsegslen : st.segs.length = tms.length + 1 := by
    rw [hsegs]
    simp
  have hesize : encodedSize m = 4 + innerSize m := rfl
  have hbacklog : st.backlog - (4 + innerSize m) = sizeList q := by
    have hq2 : sizeList (m :: q) = encodedSize m + sizeList q := sizeList_cons m q
    rw [hbk]
    omega
  unfold shiftMessage
  rw [hdec]
  simp only [if_pos hlen]
  by_cases hcase : hms' = [] ∧ tms ≠ []
  · -- the read segment is drained and an older segment: it is reaped
    obtain ⟨hcase1, hcase2⟩ := hcase
    obtain ⟨t, tms', rfl⟩ : ∃ t tms', tms = t :: tms' := by
      cases tms with
      | nil => exact absurd rfl hcase2
      | cons a b => exact ⟨a, b, rfl⟩
    have hreap : st.readOffset + 4 + innerSize m = (st.segs.headD []).length ∧
        1 < st.segs.length := by
      constructor
      · rw [hseglen, hro, hcase1]
        show consumed.length + 4 + innerSize m = _
        rw [sizeList_nil]
        omega
      · rw [hsegslen, List.length_cons]; omega
    rw [if_pos hreap]
    refine ⟨[], t, tms', ?_, rfl, ?_, ?_, ?_, ?_, ?_⟩
    · show st.segs.tail = ([] ++ encodeList t) :: tms'.map encodeList
      rw [hsegs]
      simp
    · rw [h2, hcase1]
      simp
    · exact hbacklog
    · intro g hg
      exact htms g (by simp [hg])
    · intro _
      exact htms t (by simp)
    · intro x hx
      exact hball x (by simp [hx])
  · -- the cursor stays inside the read segment
    have hnreap : ¬(st.readOffset + 4 + innerSize m = (st.segs.headD []).length ∧
        1 < st.segs.length) := by
      intro hx
      obtain ⟨hx1, hx2⟩ := hx
      apply hcase
      constructor
      · rw [hseglen, hro] at hx1
        have hsz : sizeList hms' = 0 := by omega
        exact sizeList_eq_zero hsz
      · rw [hsegslen] at hx2
        intro htmsnil
        rw [htmsnil] at hx2
        simp at hx2
    rw [if_neg hnreap]
    refine ⟨consumed ++ encodeMsg m, hms', tms, ?_, ?_, h2, ?_, htms, ?_, ?_⟩
    · show st.segs = ((consumed ++ encodeMsg m) ++ encodeList hms') :: tms.map encodeList
      rw [hsegs, encodeList_cons]
      simp
    · show st.readOffset + 4 + innerSize m = (consumed ++ encodeMsg m).length
      rw [hro, List.length_append, encodeMsg_length]
      omega
    · exact hbacklog
    · intro hqne
      intro hmsnil
      have htmsnil : tms = [] := by
        by_contra htne
        exact hcase ⟨hmsnil, htne⟩
      apply hqne
      rw [h2, hmsnil, htmsnil]
      simp
    · intro x hx
      exact hball x (List.mem_cons_of_mem m hx)

theorem shiftMessage_backlog {st : FileBlock} {m : Message} {q : List Message}
    (h : DrainInv st (m :: q)) :
    (shiftMessage st).backlog + encodedSize m = st.backlog := by
  have h2 := shiftMessage_drainInv h
  obtain ⟨-, -, -, -, -, -, hbk2, -, -, -⟩ := h2
  obtain ⟨-, -, -, -, -, -, hbk, -, -, -⟩ := h
  rw [hbk2, hbk, sizeList_cons]
  omega

theorem shiftMessage_drainNil {st : FileBlock} (h : DrainInv st []) :
    shiftMessage st = st := by
  obtain ⟨consumed, hms, tms, hsegs, hro, hq, hbk, htms, hhd, hball⟩ := h
  have hmsnil : hms = [] := (List.append_eq_nil.mp hq.symm).1
  have hfl : tms.flatten = [] := (List.append_eq_nil.mp hq.symm).2
  have hdec : decodeU32 ((st.segs.headD []).drop st.readOffset) = none := by
    rw [hsegs]
    show decodeU32 ((consumed ++ encodeList hms).drop st.readOffset) = none
    rw [hro, List.drop_left, hmsnil, encodeList_nil]
    rfl
  unfold shiftMessage
  rw [hdec]

theorem drainMessages_drainInv : ∀ (q : List Message) (st : FileBlock),
    DrainInv st q → drainMessages st q.length = q := by
  intro q
  induction q with
  | nil => intro st _; rfl
  | cons m q ih =>
    intro st h
    have hn := nextMessage_drainInv h
    have hs := shiftMessage_drainInv h
    show drainMessages st (q.length + 1) = m :: q
    unfold drainMessages
    rw [hn]
    simp only []
    rw [ih _ hs]

-- Recovery scan lemmas

theorem scanSegAux_clean : ∀ (ms : List Message) (torn : List Nat) (fuel : Nat),
    BoundedAll ms → decodeMsg torn = none → ms.length ≤ fuel →
    scanSegAux fuel (encodeList ms ++ torn) = sizeList ms := by
  intro ms
  induction ms with
  | nil =>
    intro torn fuel _ ht _
    cases fuel with
    | zero => rfl
    | succ fuel =>
      show scanSegAux (fuel + 1) (encodeList [] ++ torn) = 0
      rw [encodeList_nil, List.nil_append]
      unfold scanSegAux
      rw [ht]
  | cons m ms ih =>
    intro torn fuel hb ht hf
    cases fuel with
    | zero => simp at hf
    | succ fuel =>
      have hm : BoundedMsg m := hb m (by simp)
      have hdec : decodeMsg (encodeList (m :: ms) ++ torn) =
          some (m, encodeList ms ++ torn) := by
        rw [encodeList_cons, List.append_assoc]
        exact decodeMsg_encodeMsg m _ hm
      unfold scanSegAux
      simp only [hdec]
      have hlen1 : (encodeList (m :: ms) ++ torn).length =
          encodedSize m + (encodeList ms ++ torn).length := by
        rw [encodeList_cons, List.append_assoc, List.length_append, encodeMsg_length]
      rw [hlen1, ih torn fuel (fun x hx => hb x (by simp [hx])) ht (by simpa using hf),
        sizeList_cons]
      omega

theorem scanSeg_clean (ms : List Message) (torn : List Nat)
    (hb : BoundedAll ms) (ht : decodeMsg torn = none) :
    scanSeg (encodeList ms ++ torn) = sizeList ms := by
  unfold scanSeg
  apply scanSegAux_clean ms torn _ hb ht
  have h1 := length_le_sizeList ms
  have h2 := encodeList_length ms
  rw [List.length_append]
  omega

theorem openBlock_ne (fs : Nat) (d : List (List Nat)) (h : d ≠ []) :
    openBlock fs d =
      { fileSize := fs, readSegId := 0,
        segs := d.dropLast ++ [(d.getLastD []).take (scanSeg (d.getLastD []))],
        readOffset := 0,
        backlog := ((d.dropLast).map List.length).sum + scanSeg (d.getLastD []) } := by
  cases d with
  | nil => exact absurd rfl h
  | cons s ss => rfl

theorem sum_map_length_encodeList (pregs : List (List Message)) :
    ((pregs.map encodeList).map List.length).sum = sizeList pregs.flatten := by
  induction pregs with
  | nil => rfl
  | cons g gs ih =>
    simp only [List.map_cons, List.sum_cons, List.flatten_cons, ih,
      encodeList_length, sizeList_append]

/-- What Open computes over a directory whose last segment carries whole
frames followed by a torn tail and whose earlier segments carry whole
frames: the tail is truncated away and the backlog is the total frame
size across all segments. -/
theorem openBlock_spec (fs : Nat) (pregs : List (List Message)) (gl : List Message)
    (torn : List Nat) (hb : BoundedAll gl) (ht : decodeMsg torn = none) :
    openBlock fs (pregs.map encodeList ++ [encodeList gl ++ torn]) =
      { fileSize := fs, readSegId := 0,
        segs := pregs.map encodeList ++ [encodeList gl],
        readOffset := 0,
        backlog := sizeList (pregs.flatten ++ gl) } := by
  rw [openBlock_ne fs _ (by simp)]
  rw [List.dropLast_concat, getLastD_concat_lists]
  rw [scanSeg_clean gl torn hb ht]
  have htake : (encodeList gl ++ torn).take (sizeList gl) = encodeList gl := by
    conv_lhs => rw [← encodeList_length gl]
    exact List.take_left _ _
  rw [htake, sum_map_length_encodeList, sizeList_append]

theorem getLastD_mem {α : Type} (l : List α) (d : α) (h : l ≠ []) :
    l.getLastD d ∈ l := by
  have heq : l.getLastD d = l.getLast h := by
    rw [List.getLastD_eq_getLast?, List.getLast?_eq_getLast l h]
    rfl
  rw [heq]
  exact List.getLast_mem h

theorem map_eq_dropLast_concat {α β : Type} (f : α → β) (l : List α) (d : α)
    (h : l ≠ []) :
    l.map f = (l.dropLast).map f ++ [f (l.getLastD d)] := by
  have heq : l.getLastD d = l.getLast h := by
    rw [List.getLastD_eq_getLast?, List.getLast?_eq_getLast l h]
    rfl
  rw [heq]
  conv_lhs => rw [← List.dropLast_append_getLast h]
  rw [List.map_append]
  rfl

-- Segment size invariant preservation

theorem sizeInv_initial (fs : Nat) : SizeInv fs [[]] := by
  constructor
  · intro g hg
    simp at hg
    simp [hg, sizeList_nil]
  · intro g hg m hm
    simp at hg
    rw [hg] at hm
    simp at hm

theorem pushGroups_sizeInv {fs : Nat} {gs : List (List Message)} {m : Message}
    (h : SizeInv fs gs) : SizeInv fs (pushGroups fs gs m) := by
  obtain ⟨h1, h2⟩ := h
  unfold pushGroups
  by_cases hc : fs < sizeList (gs.getLastD []) + encodedSize m ∧
      0 < sizeList (gs.getLastD [])
  · rw [if_pos hc]
    constructor
    · intro g hg
      rcases List.mem_append.mp hg with hg1 | hg2
      · exact h1 g hg1
      · simp at hg2
        simp [hg2, sizeList_nil]
    · intro g hg m' hm' hbig
      rcases List.mem_append.mp hg with hg1 | hg2
      · exact h2 g hg1 m' hm' hbig
      · simp at hg2
        subst hg2
        simp at hm'
        rw [hm']
  · rw [if_neg hc]
    rcases List.eq_nil_or_concat gs with hnil | ⟨gs0, glast, rfl⟩
    · subst hnil
      constructor
      · intro g hg
        simp [appendLastGroup] at hg
        simp [hg, sizeList_nil]
      · intro g hg m' hm' _
        simp [appendLastGroup] at hg
        subst hg
        simp at hm'
        rw [hm']
    · simp only [List.concat_eq_append] at h1 h2 hc ⊢
      have hlast : (gs0 ++ [glast]).getLastD [] = glast := getLastD_concat_lists _ _ _
      have hgs' : appendLastGroup (gs0 ++ [glast]) m = gs0 ++ [glast ++ [m]] := by
        rw [appendLastGroup_eq _ _ (by simp), List.dropLast_concat, hlast]
      rw [hgs']
      have hdisj : sizeList glast + encodedSize m ≤ fs ∨ sizeList glast = 0 := by
        rw [hlast] at hc
        omega
      constructor
      · intro g hg
        rcases List.mem_append.mp hg with hg1 | hg2
        · exact h1 g (by simp [hg1])
        · simp at hg2
          subst hg2
          rw [List.dropLast_concat]
          have := encodedSize_ge m
          rcases hdisj with hA | hB
          · omega
          · omega
      · intro g hg m' hm' hbig
        rcases List.mem_append.mp hg with hg1 | hg2
        · exact h2 g (by simp [hg1]) m' hm' hbig
        · simp at hg2
          subst hg2
          rcases List.mem_append.mp hm' with hm1 | hm2
          · exfalso
            have hsingle : glast = [m'] :=
              h2 glast (by simp) m' hm1 hbig
            have hsz : sizeList glast = encodedSize m' := by
              rw [hsingle, sizeList_cons, sizeList_nil]
              omega
            have := encodedSize_ge m'
            rcases hdisj with hA | hB
            · omega
            · omega
          · simp at hm2
            subst hm2
            rcases hdisj with hA | hB
            · exfalso
              have := encodedSize_ge m'
              omega
            · have hempty : glast = [] := sizeList_eq_zero hB
              rw [hempty]
              rfl

theorem pushAllGroups_sizeInv {fs : Nat} {gs : List (List Message)}
    (h : SizeInv fs gs) (ms : List Message) :
    SizeInv fs (pushAllGroups fs gs ms) := by
  induction ms generalizing gs with
  | nil => exact h
  | cons m ms ih => exact ih (pushGroups_sizeInv h)

-- Glue lemmas

theorem eq_dropLast_concat {α : Type} (l : List α) (d : α) (h : l ≠ []) :
    l = l.dropLast ++ [l.getLastD d] := by
  have heq : l.getLastD d = l.getLast h := by
    rw [List.getLastD_eq_getLast?, List.getLast?_eq_getLast l h]
    rfl
  rw [heq]
  exact (List.dropLast_append_getLast h).symm

theorem sizeList_pos {ms : List Message} (h : ms ≠ []) : 0 < sizeList ms := by
  cases ms with
  | nil => exact absurd rfl h
  | cons m ms =>
    rw [sizeList_cons]
    have := encodedSize_ge m
    omega

theorem pushInv_after_pushAll (fs : Nat) (ms : List Message) (hb : BoundedAll ms) :
    PushInv fs (pushAllMessages (fileBlockNew fs) ms) (pushAllGroups fs [[]] ms) :=
  pushAllMessages_pushInv (pushInv_fileBlockNew fs) hb

theorem pushAllGroups_new_flatten (fs : Nat) (ms : List Message) :
    (pushAllGroups fs [[]] ms).flatten = ms := by
  rw [pushAllGroups_flatten]
  simp

theorem drain_after_pushAll_inv {fs : Nat} {st : FileBlock} {gs : List (List Message)}
    (h : PushInv fs st gs) {ms : List Message} (hb : BoundedAll ms) :
    drainMessages (pushAllMessages st ms) (gs.flatten ++ ms).length =
      gs.flatten ++ ms := by
  have hpi := pushAllMessages_pushInv h hb
  have hdi := drainInv_of_pushInv hpi
  rw [pushAllGroups_flatten] at hdi
  exact drainMessages_drainInv _ _ hdi

theorem pushInv_openBlock_groups (fs : Nat) (gsf : List (List Message))
    (torn : List Nat) (hne : gsf ≠ []) (hneg : NEGroups gsf)
    (hb : BoundedAll gsf.flatten) (ht : decodeMsg torn = none) :
    PushInv fs
      (openBlock fs (gsf.dropLast.map encodeList ++ [encodeList (gsf.getLastD []) ++ torn]))
      gsf := by
  have hgl : BoundedAll (gsf.getLastD []) := fun x hx =>
    hb x (List.mem_flatten.mpr ⟨_, getLastD_mem gsf [] hne, hx⟩)
  rw [openBlock_spec fs _ _ torn hgl ht]
  have hsplit : gsf = gsf.dropLast ++ [gsf.getLastD []] := eq_dropLast_concat gsf [] hne
  refine ⟨hne, rfl, ?_, rfl, ?_, hneg, hb⟩
  · show gsf.dropLast.map encodeList ++ [encodeList (gsf.getLastD [])] =
      gsf.map encodeList
    conv_rhs => rw [hsplit]
    simp
  · show sizeList (gsf.dropLast.flatten ++ gsf.getLastD []) = sizeList gsf.flatten
    conv_rhs => rw [hsplit]
    rw [List.flatten_append]
    simp [sizeList_append]

-- Claim theorems

/-- Claim C1: FIFO delivery.  For every sequence of messages supplied to Push
on an open block, successive Next/Shift pairs return exactly that sequence in
the same order, across all segments, for every FileSize (including sizes that
force many segment rollovers). -/
theorem claim_fifo_delivery (fs : Nat) (ms : List Message) (hb : BoundedAll ms) :
    drainMessages (pushAllMessages (fileBlockNew fs) ms) ms.length = ms := by
  have h := drain_after_pushAll_inv (pushInv_fileBlockNew fs) hb
  simpa using h

theorem claim_fifo_delivery_witness :
    BoundedAll [[[104]], [[105]], [[106]]] ∧
    drainMessages (pushAllMessages (fileBlockNew 10) [[[104]], [[105]], [[106]]]) 3
      = [[[104]], [[105]], [[106]]] :=
  ⟨by decide, claim_fifo_delivery 10 [[[104]], [[105]], [[106]]] (by decide)⟩

/-- Claim C2 counterexample: pushing the message with single part 1234 onto a
fresh block raises the backlog to 16, not by the amount 4 + (4 + 4) = 12 that
the claimed encoded-size formula gives. -/
theorem claim_backlog_formula_cx :
    (pushMessage (fileBlockNew 100000) [[49, 50, 51, 52]]).backlog
      ≠ (fileBlockNew 100000).backlog + (4 + (4 + 4)) := by decide

/-- Claim C2 (amended): the encoded size of a message with part lengths
L0..L(n-1) is 8 + the sum over i of (4 + Li) (a 4-byte frame length prefix
and a 4-byte part count, then a 4-byte length plus payload per part); Push
increases Backlog by exactly the encoded size and Shift decreases it by the
encoded size of the shifted message; in particular the scenario backlogs are
16, 40, 24 and 0. -/
theorem claim_backlog_accounting :
    (∀ m : Message, encodedSize m = 8 + (m.map (fun p => 4 + p.length)).sum) ∧
    (∀ (st : FileBlock) (m : Message),
      (pushMessage st m).backlog = st.backlog + encodedSize m) ∧
    (∀ (st : FileBlock) (m : Message) (q : List Message), DrainInv st (m :: q) →
      (shiftMessage st).backlog + encodedSize m = st.backlog) ∧
    (pushMessage (fileBlockNew 100000) [[49, 50, 51, 52]]).backlog = 16 ∧
    (pushMessage (pushMessage (fileBlockNew 100000) [[49, 50, 51, 52]])
      [[49, 50, 51, 52], [49, 50, 51, 52]]).backlog = 40 ∧
    (shiftMessage (pushMessage (pushMessage (fileBlockNew 100000) [[49, 50, 51, 52]])
      [[49, 50, 51, 52], [49, 50, 51, 52]])).backlog = 24 ∧
    (shiftMessage (shiftMessage (pushMessage (pushMessage (fileBlockNew 100000)
      [[49, 50, 51, 52]]) [[49, 50, 51, 52], [49, 50, 51, 52]]))).backlog = 0 := by
  refine ⟨?_, ?_, ?_, by decide, by decide, by decide, by decide⟩
  · intro m
    unfold encodedSize innerSize
    omega
  · intro st m
    unfold pushMessage
    split
    · rfl
    · rfl
  · intro st m q h
    exact shiftMessage_backlog h

theorem claim_backlog_accounting_witness :
    encodedSize [[49, 50, 51, 52]] = 8 + (4 + 4) ∧
    (pushMessage (fileBlockNew 9) [[7]]).backlog
      = (fileBlockNew 9).backlog + encodedSize [[7]] ∧
    (shiftMessage (pushMessage (fileBlockNew 9) [[7]])).backlog + encodedSize [[7]]
      = (pushMessage (fileBlockNew 9) [[7]]).backlog := by
  have hdi : DrainInv (pushMessage (fileBlockNew 9) [[7]]) [[[7]]] := by
    have h1 := drainInv_of_pushInv
      (@pushMessage_pushInv 9 (fileBlockNew 9) [[]] [[7]]
        (pushInv_fileBlockNew 9) (by decide))
    have h2 : (pushGroups 9 [[]] [[7]]).flatten = [[[7]]] := by decide
    rwa [h2] at h1
  refine ⟨?_, claim_backlog_accounting.2.1 _ _,
    claim_backlog_accounting.2.2.1 _ _ [] hdi⟩
  have h3 := claim_backlog_accounting.1 [[49, 50, 51, 52]]
  simpa using h3

/-- Claim C3: encode/decode round-trip: decoding the encoding of any bounded
Message returns it exactly, including messages with zero parts and parts of
length zero. -/
theorem claim_codec_roundtrip :
    (∀ m : Message, BoundedMsg m → decodeMsg (encodeMsg m) = some (m, [])) ∧
    decodeMsg (encodeMsg []) = some ([], []) ∧
    decodeMsg (encodeMsg [[]]) = some ([[]], []) := by
  refine ⟨?_, by decide, by decide⟩
  intro m hm
  have h := decodeMsg_encodeMsg m [] hm
  rwa [List.append_nil] at h

theorem claim_codec_roundtrip_witness :
    BoundedMsg [[0], [], [255, 1]] ∧
    decodeMsg (encodeMsg [[0], [], [255, 1]]) = some ([[0], [], [255, 1]], []) :=
  ⟨by decide, claim_codec_roundtrip.1 [[0], [], [255, 1]] (by decide)⟩

/-- Claim C4: recovery under clean close: for every pushed sequence, closing
the block and opening a new block over the surviving directory, then
draining, returns exactly the pushed sequence in order. -/
theorem claim_recovery_clean_close (fs : Nat) (ms : List Message)
    (hb : BoundedAll ms) :
    drainMessages
      (openBlock fs (closeBlock (pushAllMessages (fileBlockNew fs) ms)))
      ms.length = ms := by
  obtain ⟨hne, hfs, hsegs, hro, hbk, hneg, hball⟩ := pushInv_after_pushAll fs ms hb
  have hfl := pushAllGroups_new_flatten fs ms
  have hdir : closeBlock (pushAllMessages (fileBlockNew fs) ms)
      = (pushAllGroups fs [[]] ms).map encodeList := hsegs
  rw [hdir]
  have hdecomp : (pushAllGroups fs [[]] ms).map encodeList =
      (pushAllGroups fs [[]] ms).dropLast.map encodeList ++
        [encodeList ((pushAllGroups fs [[]] ms).getLastD []) ++ []] := by
    rw [List.append_nil]
    conv_lhs => rw [eq_dropLast_concat (pushAllGroups fs [[]] ms) [] hne]
    simp
  rw [hdecomp]
  have hpi := pushInv_openBlock_groups fs (pushAllGroups fs [[]] ms) [] hne hneg
    hball decodeMsg_nil
  have hdi := drainInv_of_pushInv hpi
  rw [hfl] at hdi
  exact drainMessages_drainInv ms _ hdi

theorem claim_recovery_clean_close_witness :
    BoundedAll [[[104]], [[105]]] ∧
    drainMessages (openBlock 10 (closeBlock (pushAllMessages (fileBlockNew 10)
      [[[104]], [[105]]]))) 2 = [[[104]], [[105]]] :=
  ⟨by decide, claim_recovery_clean_close 10 [[[104]], [[105]]] (by decide)⟩

/-- Claim C5: backlog reconstruction on Open: over a non-empty directory the
backlog immediately after Open equals the total encoded size of all frames in
all segments (after the torn-frame check on the final segment), and in
particular is not zero whenever any frame is present. -/
theorem claim_backlog_reconstruction (fs : Nat) (pregs : List (List Message))
    (gl : List Message) (torn : List Nat) (hb : BoundedAll gl)
    (ht : decodeMsg torn = none) :
    (openBlock fs (pregs.map encodeList ++ [encodeList gl ++ torn])).backlog
      = sizeList (pregs.flatten ++ gl) ∧
    (pregs.flatten ++ gl ≠ [] →
      0 < (openBlock fs (pregs.map encodeList ++ [encodeList gl ++ torn])).backlog) := by
  rw [openBlock_spec fs pregs gl torn hb ht]
  exact ⟨rfl, fun h => sizeList_pos h⟩

theorem claim_backlog_reconstruction_witness :
    BoundedAll [[[50]]] ∧ decodeMsg [7, 7] = none ∧
    (openBlock 100 ([[[[49]]]].map encodeList ++ [encodeList [[[50]]] ++ [7, 7]])).backlog
      = sizeList ([[[[49]]]].flatten ++ [[[50]]]) :=
  ⟨by decide, by decide,
    (claim_backlog_reconstruction 100 [[[[49]]]] [[[50]]] [7, 7]
      (by decide) (by decide)).1⟩

/-- Claim C6: no-split and rollover: Push rolls over to a new segment exactly
when the write offset is positive and appending the frame would cross
FileSize; consequently every segment reached by pushes from a fresh block is
a concatenation of whole frames (no frame spans two segments), dropping a
segment's final frame leaves at most FileSize bytes, and any message whose
encoded size exceeds FileSize is accepted and occupies a segment alone. -/
theorem claim_no_split_rollover :
    (∀ (st : FileBlock) (m : Message), st.segs ≠ [] →
      ((pushMessage st m).segs.length = st.segs.length + 1 ↔
        (st.fileSize < writeOffset st + encodedSize m ∧ 0 < writeOffset st))) ∧
    (∀ (fs : Nat) (ms : List Message), BoundedAll ms →
      ∃ gs : List (List Message),
        (pushAllMessages (fileBlockNew fs) ms).segs = gs.map encodeList ∧
        gs.flatten = ms ∧
        (∀ g ∈ gs, (encodeList g.dropLast).length ≤ fs) ∧
        (∀ g ∈ gs, ∀ m ∈ g, fs < encodedSize m → g = [m])) := by
  constructor
  · intro st m hne
    unfold pushMessage
    by_cases hc : st.fileSize < writeOffset st + encodedSize m ∧ 0 < writeOffset st
    · rw [if_pos hc]
      constructor
      · intro _
        exact hc
      · intro _
        show (appendToLast (st.segs ++ [[]]) (encodeMsg m)).length = st.segs.length + 1
        rw [appendToLast_length _ _ (by simp)]
        simp
    · rw [if_neg hc]
      constructor
      · intro hlen
        exfalso
        have h2 : (appendToLast st.segs (encodeMsg m)).length = st.segs.length :=
          appendToLast_length _ _ hne
        have h3 : (appendToLast st.segs (encodeMsg m)).length = st.segs.length + 1 :=
          hlen
        omega
      · intro h
        exact absurd h hc
  · intro fs ms hb
    obtain ⟨hne, hfs, hsegs, hro, hbk, hneg, hball⟩ := pushInv_after_pushAll fs ms hb
    obtain ⟨hs1, hs2⟩ := pushAllGroups_sizeInv (sizeInv_initial fs) ms
    exact ⟨pushAllGroups fs [[]] ms, hsegs, pushAllGroups_new_flatten fs ms,
      fun g hg => by rw [encodeList_length]; exact hs1 g hg, hs2⟩

theorem claim_no_split_rollover_witness :
    (fileBlockNew 5).segs ≠ [] ∧
    ((pushMessage (fileBlockNew 5) [[1]]).segs.length
        = (fileBlockNew 5).segs.length + 1 ↔
      ((fileBlockNew 5).fileSize < writeOffset (fileBlockNew 5) + encodedSize [[1]] ∧
        0 < writeOffset (fileBlockNew 5))) ∧
    BoundedAll [[[1]], [[2]]] ∧
    (∃ gs : List (List Message),
      (pushAllMessages (fileBlockNew 5) [[[1]], [[2]]]).segs = gs.map encodeList ∧
      gs.flatten = [[[1]], [[2]]] ∧
      (∀ g ∈ gs, (encodeList g.dropLast).length ≤ 5) ∧
      (∀ g ∈ gs, ∀ m ∈ g, 5 < encodedSize m → g = [m])) :=
  ⟨by decide, claim_no_split_rollover.1 (fileBlockNew 5) [[1]] (by decide),
    by decide, claim_no_split_rollover.2 5 [[[1]], [[2]]] (by decide)⟩

/-- Claim C7 counterexample: after two pushes and no Next at all, a Shift
changes the backlog from 40 to 24, so a Shift with no preceding Next is not
a no-op as claimed. -/
theorem claim_next_shift_guard_cx :
    (shiftMessage (pushMessage (pushMessage (fileBlockNew 100000) [[49, 50, 51, 52]])
        [[49, 50, 51, 52], [49, 50, 51, 52]])).backlog
      ≠ (pushMessage (pushMessage (fileBlockNew 100000) [[49, 50, 51, 52]])
        [[49, 50, 51, 52], [49, 50, 51, 52]]).backlog := by decide

/-- Claim C7 (amended): Next is a pure read returning the message at the read
cursor without advancing it, but Shift is not guarded by Next: Shift advances
the read cursor past the frame at the cursor and decreases the backlog by its
encoded size even when Next was never called, and Shift is a no-op exactly
when no complete frame is pending (empty backlog). -/
theorem claim_next_readonly_shift_unguarded :
    (∀ st : FileBlock, DrainInv st [] → shiftMessage st = st) ∧
    (∀ (st : FileBlock) (m : Message) (q : List Message), DrainInv st (m :: q) →
      nextMessage st = some m ∧
      (shiftMessage st).backlog + encodedSize m = st.backlog ∧
      DrainInv (shiftMessage st) q) :=
  ⟨fun _ h => shiftMessage_drainNil h,
   fun _ _ _ h => ⟨nextMessage_drainInv h, shiftMessage_backlog h,
     shiftMessage_drainInv h⟩⟩

theorem claim_next_readonly_shift_unguarded_witness :
    shiftMessage (fileBlockNew 7) = fileBlockNew 7 ∧
    nextMessage (pushMessage (fileBlockNew 7) [[5]]) = some [[5]] := by
  have hdi0 : DrainInv (fileBlockNew 7) [] := by
    refine ⟨[], [], [], ?_, rfl, rfl, rfl, ?_, ?_, ?_⟩
    · rfl
    · intro g hg
      simp at hg
    · intro h
      exact absurd rfl h
    · intro x hx
      simp at hx
  have hdi1 : DrainInv (pushMessage (fileBlockNew 7) [[5]]) [[[5]]] := by
    have h1 := drainInv_of_pushInv
      (@pushMessage_pushInv 7 (fileBlockNew 7) [[]] [[5]]
        (pushInv_fileBlockNew 7) (by decide))
    have h2 : (pushGroups 7 [[]] [[5]]).flatten = [[[5]]] := by decide
    rwa [h2] at h1
  exact ⟨claim_next_readonly_shift_unguarded.1 _ hdi0,
    (claim_next_readonly_shift_unguarded.2 _ _ [] hdi1).1⟩

/-- Claim C8: torn-tail repair on Open: the write segment is scanned from
offset 0 and W is the last complete frame boundary; the write offset becomes
W and the segment content is truncated to W, so the torn trailing frame is
silently discarded while every complete frame remains readable in order and
later pushes append cleanly after W. -/
theorem claim_torn_tail_repair (fs : Nat) (pregs : List (List Message))
    (gl : List Message) (torn : List Nat) (more : List Message)
    (hb : BoundedAll (pregs.flatten ++ gl)) (hmore : BoundedAll more)
    (ht : decodeMsg torn = none) (hpne : ∀ g ∈ pregs, g ≠ [])
    (hglnil : gl = [] → pregs = []) :
    scanSeg (encodeList gl ++ torn) = (encodeList gl).length ∧
    writeOffset (openBlock fs (pregs.map encodeList ++ [encodeList gl ++ torn]))
      = sizeList gl ∧
    (openBlock fs (pregs.map encodeList ++ [encodeList gl ++ torn])).segs
      = pregs.map encodeList ++ [encodeList gl] ∧
    drainMessages
      (pushAllMessages
        (openBlock fs (pregs.map encodeList ++ [encodeList gl ++ torn])) more)
      (pregs.flatten ++ gl ++ more).length
      = pregs.flatten ++ gl ++ more := by
  have hbgl : BoundedAll gl := fun x hx => hb x (by simp [hx])
  have hds : (pregs ++ [gl]).dropLast = pregs := List.dropLast_concat
  have hgld : (pregs ++ [gl]).getLastD [] = gl := getLastD_concat_lists _ _ _
  have hflt : (pregs ++ [gl]).flatten = pregs.flatten ++ gl := by simp
  have hneg : NEGroups (pregs ++ [gl]) := by
    by_cases hgl : gl = []
    · right
      rw [hgl, hglnil hgl]
      rfl
    · left
      intro g hg
      rcases List.mem_append.mp hg with h1 | h2
      · exact hpne g h1
      · simp at h2
        rw [h2]
        exact hgl
  have hbf : BoundedAll (pregs ++ [gl]).flatten := by
    rw [hflt]
    exact hb
  have hpi := pushInv_openBlock_groups fs (pregs ++ [gl]) torn (by simp) hneg hbf ht
  rw [hds, hgld] at hpi
  have hdrain := drain_after_pushAll_inv hpi hmore
  rw [hflt] at hdrain
  refine ⟨?_, ?_, ?_, ?_⟩
  · rw [encodeList_length]
    exact scanSeg_clean gl torn hbgl ht
  · rw [openBlock_spec fs pregs gl torn hbgl ht]
    show ((pregs.map encodeList ++ [encodeList gl]).getLastD []).length = sizeList gl
    rw [getLastD_concat_lists, encodeList_length]
  · rw [openBlock_spec fs pregs gl torn hbgl ht]
  · exact hdrain

theorem claim_torn_tail_repair_witness :
    drainMessages
      (pushAllMessages (openBlock 20 ([[[[49]]]].map encodeList ++
        [encodeList [[[50]]] ++ [9, 9, 9]])) [[[51]]])
      ([[[[49]]]].flatten ++ [[[50]]] ++ [[[51]]]).length
      = [[[[49]]]].flatten ++ [[[50]]] ++ [[[51]]] :=
  (claim_torn_tail_repair 20 [[[[49]]]] [[[50]]] [9, 9, 9] [[[51]]]
    (by decide) (by decide) (by decide) (by decide) (by decide)).2.2.2

/-- Claim C9: bootstrap wiring: a fan-out broker over the outputs is
constructed exactly when the number of configured outputs differs from one
(including zero), otherwise the buffer couples directly to the single
configured output; symmetrically a fan-in broker over the inputs is
constructed exactly when the number of configured inputs differs from one. -/
theorem claim_bootstrap_wiring (outConfs inConfs : List String) :
    ((wireOut outConfs).usesFanOut = true ↔ outConfs.length ≠ 1) ∧
    (∀ o : String, wireOut [o] = OutWiring.directTo o) ∧
    ((wireIn inConfs).usesFanIn = true ↔ inConfs.length ≠ 1) ∧
    (∀ i : String, wireIn [i] = InWiring.directFrom i) := by
  refine ⟨?_, ?_, ?_, ?_⟩
  · unfold wireOut
    by_cases h : outConfs.length ≠ 1
    · rw [if_pos h]
      simp [OutWiring.usesFanOut, h]
    · rw [if_neg h]
      simp [OutWiring.usesFanOut, h]
  · intro o
    unfold wireOut
    rw [if_neg (by simp)]
    rfl
  · unfold wireIn
    by_cases h : inConfs.length ≠ 1
    · rw [if_pos h]
      simp [InWiring.usesFanIn, h]
    · rw [if_neg h]
      simp [InWiring.usesFanIn, h]
  · intro i
    unfold wireIn
    rw [if_neg (by simp)]
    rfl

theorem foldl_stdout_iff (outTypes : List String) (acc : Bool) :
    outTypes.foldl (fun a t => if t = "stdout" then true else a) acc = true ↔
      acc = true ∨ "stdout" ∈ outTypes := by
  induction outTypes generalizing acc with
  | nil => simp
  | cons t ts ih =>
    rw [List.foldl_cons, ih]
    by_cases ht : t = "stdout"
    · subst ht
      simp
    · have ht2 : ¬("stdout" = t) := fun h => ht h.symm
      simp [ht, ht2]

/-- Claim C10: log destination selection: the process logger writes to stderr
exactly when at least one configured output has type stdout, and otherwise
writes to stdout. -/
theorem claim_log_destination (outTypes : List String) :
    (logDestination outTypes = LogSink.toStderr ↔ "stdout" ∈ outTypes) ∧
    (logDestination outTypes = LogSink.toStdout ↔ "stdout" ∉ outTypes) := by
  have hflag : haveStdoutFlag outTypes = true ↔ "stdout" ∈ outTypes := by
    unfold haveStdoutFlag
    rw [foldl_stdout_iff]
    simp
  unfold logDestination
  by_cases h : haveStdoutFlag outTypes = true
  · rw [if_pos h]
    have hm := hflag.mp h
    constructor
    · simp [hm]
    · simp [hm]
  · rw [if_neg h]
    have hnm : "stdout" ∉ outTypes := fun hm => h (hflag.mpr hm)
    constructor
    · simp [hnm]
    · simp [hnm]
